import Mathlib

/-!
Verification of the DashGate multi-source discovery engine.

Strings from the Go source are modelled as `List Char` (`Str`); Go string
algorithms (`strings.ReplaceAll`, `strings.Index`, the hand-written scanners
of the nginx configuration parser, …) are translated to executable Lean
functions over `Str`.
-/

set_option maxRecDepth 4000

abbrev Str := List Char

/-- `Str` form of a Lean string literal. -/
def str (s : String) : Str := s.toList

/-- Go `strings.Index(s, pat)`: index of the first occurrence of `pat`
in `s`, `none` when there is no occurrence (Go returns `-1`).
For an empty `pat` the result is `some 0`, as in Go. -/
def indexOfSub (pat : Str) : Str → Option Nat
  | [] => if pat.isPrefixOf [] then some 0 else none
  | c :: rest =>
    if pat.isPrefixOf (c :: rest) then some 0
    else (indexOfSub pat rest).map (· + 1)

/-- Go `strings.Contains(s, pat)`. -/
def containsSub (pat s : Str) : Bool := (indexOfSub pat s).isSome

/-- Recursion core of `replaceAll`.  The fuel argument only makes the
recursion structural (each step consumes at least one character of `s`, so
fuel `s.length` is always sufficient); it never changes the result. -/
def replaceAllAux (pat rep : Str) : Nat → Str → Str
  | 0, s => s
  | _ + 1, [] => []
  | fuel + 1, c :: rest =>
    if pat ≠ [] ∧ pat.isPrefixOf (c :: rest) then
      rep ++ replaceAllAux pat rep fuel ((c :: rest).drop pat.length)
    else
      c :: replaceAllAux pat rep fuel rest

/-- Go `strings.ReplaceAll(s, pat, rep)` for a non-empty pattern: scan left
to right, replacing each non-overlapping occurrence of `pat` with `rep` and
resuming after the occurrence.  (The Go behaviour for an empty pattern —
interleaving `rep` between runes — is not reached by the program: the only
patterns used are `"[IP]"`, `"-"` and `"_"`.) -/
def replaceAll (pat rep s : Str) : Str := replaceAllAux pat rep s.length s

/-! ## Unraid collector: WebUI placeholder substitution (`processUnraidWebUIURL`) -/

def ipPat : Str := str "[IP]"

def portPat : Str := str "[PORT:"

/-- Recursion core of the `[PORT:default]` stripping loop of
`processUnraidWebUIURL`.  Each iteration removes the seven characters of the
bracket syntax (`[PORT:` and `]`), keeping the default value, so fuel
`s.length` is always sufficient; the fuel never changes the result.

Go body of one iteration:
`start := strings.Index(result, "[PORT:")`; stop when `-1`;
`end := strings.Index(result[start:], "]")`; stop when `-1`;
`defaultPort := result[start+6 : start+end]`;
`result = result[:start] + defaultPort + result[start+end+1:]`. -/
def portLoopAux : Nat → Str → Str
  | 0, s => s
  | fuel + 1, s =>
    match indexOfSub portPat s with
    | none => s
    | some start =>
      match indexOfSub [']'] (s.drop start) with
      | none => s
      | some e =>
        portLoopAux fuel
          (s.take start ++ ((s.drop start).drop 6).take (e - 6)
            ++ s.drop (start + e + 1))

/-- The `[PORT:default]` stripping loop of `processUnraidWebUIURL`. -/
def portLoop (s : Str) : Str := portLoopAux s.length s

/-- Modelled from the Go standard library: `url.Parse(u).Hostname()` for a
URL of the shape `scheme://host[:port][/path…]` without userinfo and without
an IPv6 bracket literal (the shapes the Unraid management URL takes): the
authority is what follows `"://"` up to the first `/`, `?` or `#`, and the
hostname is the authority up to the first `:`.  A URL with no `"://"` parses
with an empty host, so `Hostname()` is empty. -/
def goURLHostname (u : Str) : Str :=
  match indexOfSub (str "://") u with
  | none => []
  | some i =>
    let auth := (u.drop (i + 3)).takeWhile (fun c => !(c == '/' || c == '?' || c == '#'))
    auth.takeWhile (fun c => !(c == ':'))

/-- Go `processUnraidWebUIURL(webUIURL, unraidURL)`: replace every `[IP]`
with the management host's hostname, then strip `[PORT:default]`
placeholders.  (The `url.Parse` error branch, which returns `webUIURL`
unchanged, is not reachable in this model because the modelled parser is
total.) -/
def processUnraidWebUIURL (webUIURL unraidURL : Str) : Str :=
  portLoop (replaceAll ipPat (goURLHostname unraidURL) webUIURL)

/-! ## Nginx config parser: comment-aware brace extraction (`extractBlock`) -/

/-- Recursion core of `extractBlock`: `t` is the unscanned remainder
(`s.drop i`), `inComment` the single-line-comment state, `braceCount` the
nesting depth (starting at 1).  Mirrors the Go `for i, char := range s`
loop body character by character. -/
def extractBlockAux (s : Str) : Str → Nat → Bool → Int → (Str × Int)
  | [], _, _, _ => (s, -1)
  | c :: rest, i, inComment, braceCount =>
    if c = '\n' then extractBlockAux s rest (i + 1) false braceCount
    else if inComment then extractBlockAux s rest (i + 1) inComment braceCount
    else if c = '#' then extractBlockAux s rest (i + 1) true braceCount
    else if c = '{' then extractBlockAux s rest (i + 1) inComment (braceCount + 1)
    else if c = '}' then
      if braceCount - 1 = 0 then (s.take i, (i : Int))
      else extractBlockAux s rest (i + 1) inComment (braceCount - 1)
    else extractBlockAux s rest (i + 1) inComment braceCount

/-- Go `extractBlock(s)`: scan with nesting depth starting at 1, ignoring
braces between a `#` and the next newline; on depth first returning to 0 at
position `i`, return `(s[:i], i)`; otherwise `(s, -1)`. -/
def extractBlock (s : Str) : Str × Int := extractBlockAux s s 0 false 1

/-- One step of the specification-level scan for `extractBlock`: the state
is the pair (inside-comment flag, nesting depth). -/
def commentDepthStep : (Bool × Int) → Char → (Bool × Int)
  | (inC, d), c =>
    if c = '\n' then (false, d)
    else if inC then (inC, d)
    else if c = '#' then (true, d)
    else if c = '{' then (inC, d + 1)
    else if c = '}' then (inC, d - 1)
    else (inC, d)

/-- Specification-level scan state after a prefix: fold `commentDepthStep`
from the initial state (not in a comment, depth 1). -/
def scanState (s : Str) : Bool × Int := s.foldl commentDepthStep (false, 1)

/-! ## Nginx config parser: include inlining (`resolveIncludes`) -/

/-- Character class `\s` of Go's regexp package: `[\t\n\f\r ]`. -/
def isGoSpace (c : Char) : Bool :=
  c == ' ' || c == '\t' || c == '\n' || c == '\x0C' || c == '\r'

/-- Go `strings.TrimSpace` restricted to the ASCII white-space characters
(`'\t'`, `'\n'`, `'\x0B'`, `'\x0C'`, `'\r'`, `' '`). -/
def goTrimSpace (s : Str) : Str :=
  ((s.dropWhile isCut).reverse.dropWhile isCut).reverse
where
  isCut (c : Char) : Bool :=
    c == ' ' || c == '\t' || c == '\n' || c == '\x0B' || c == '\x0C' || c == '\r'

/-- Match of the include-directive regex `(?m)^\s*include\s+([^;]+);` at a
line-start position, with Go's leftmost-first (greedy) semantics: maximal
run of `\s`, literal `include`, a non-empty run of `\s` (shrunk by one
character when the directive body would otherwise be empty), the capture
`[^;]+`, then `;`.  Returns the raw capture and the remainder after the
`;`, or `none` when the regex does not match at this position. -/
def tryIncludeMatch (s : Str) : Option (Str × Str) :=
  let w1 := s.takeWhile isGoSpace
  let s1 := s.drop w1.length
  if (str "include").isPrefixOf s1 then
    let s2 := s1.drop 7
    let w2 := s2.takeWhile isGoSpace
    if w2.length ≥ 1 then
      let s3 := s2.drop w2.length
      let body := s3.takeWhile (fun c => !(c == ';'))
      match s3.drop body.length with
      | ';' :: rest =>
        if body.length ≥ 1 then some (body, rest)
        else if w2.length ≥ 2 then some (w2.drop (w2.length - 1), rest)
        else none
      | _ => none
    else none
  else none

/-- Recursion core of `splitIncludes`; fuel `s.length` is always sufficient
because every step consumes at least one character. -/
def splitIncludesAux : Nat → Bool → Str → List (Str ⊕ Str)
  | 0, _, s => [Sum.inl s]
  | _ + 1, _, [] => []
  | fuel + 1, atLineStart, c :: rest =>
    if atLineStart then
      match tryIncludeMatch (c :: rest) with
      | some (capture, after) =>
        Sum.inr capture :: splitIncludesAux fuel false after
      | none => Sum.inl [c] :: splitIncludesAux fuel (c == '\n') rest
    else
      Sum.inl [c] :: splitIncludesAux fuel (c == '\n') rest

/-- Decomposition of a document into literal text (`Sum.inl`) and the raw
captures of the include-directive regex (`Sum.inr`), in document order —
the match structure that `includeRe.ReplaceAllStringFunc` traverses. -/
def splitIncludes (s : Str) : List (Str ⊕ Str) :=
  splitIncludesAux s.length true s

/-- `maxIncludeFileSize` of the Go source: 1 MiB. -/
def maxIncludeFileSize : Nat := 1 <<< 20

/-- Environment abstracting the filesystem and the external path-safety
check used by `resolveIncludes`: `validate` is
`urlvalidation.ValidateNginxConfigPath` (true = no error), `glob` is
`filepath.Glob` (`none` = error), `evalSymlinks` is
`filepath.EvalSymlinks`, `statSize` is `os.Stat(...).Size()`, and
`readFile` is `os.ReadFile`. -/
structure NginxFS where
  validate : Str → Bool
  glob : Str → Option (List Str)
  evalSymlinks : Str → Option Str
  statSize : Str → Option Nat
  readFile : Str → Option Str

/-- Recursion core of `resolveIncludes` over remaining depth budget
(`fuel = 4 - depth`): fuel 0 is Go's `depth > 3` guard and returns the
content with its include directives unexpanded.  Otherwise every include
match is replaced: a path failing validation by an inert comment marker, a
failed or empty glob by `"# include not found"`, and otherwise by the
concatenation, over the glob matches, of the recursively resolved file
contents (each followed by a newline), skipping files whose symlink
resolution, re-validation, stat, size cap, or read fails. -/
def resolveIncludesAux (fs : NginxFS) : Nat → Str → Str
  | 0, content => content
  | fuel + 1, content =>
    (splitIncludes content).foldr
      (fun seg acc =>
        (match seg with
         | Sum.inl lit => lit
         | Sum.inr raw =>
           let includePath := goTrimSpace raw
           if !fs.validate includePath then
             str "# include skipped (validation failed)"
           else
             match fs.glob includePath with
             | none => str "# include not found"
             | some [] => str "# include not found"
             | some ms =>
               ms.foldr
                 (fun m acc2 =>
                   (match fs.evalSymlinks m with
                    | none => []
                    | some resolved =>
                      if !fs.validate resolved then []
                      else
                        match fs.statSize resolved with
                        | none => []
                        | some sz =>
                          if sz > maxIncludeFileSize then []
                          else
                            match fs.readFile resolved with
                            | none => []
                            | some data =>
                              resolveIncludesAux fs fuel data ++ ['\n'])
                   ++ acc2)
                 []) ++ acc)
      []

/-- Go `resolveIncludes(content, depth)` over the filesystem environment
`fs`.  The Go recursion increments `depth` and stops past the cap
(`depth > 3`); it is encoded here by the remaining budget `4 - depth`,
which reaches 0 exactly when `depth > 3`. -/
def resolveIncludes (fs : NginxFS) (content : Str) (depth : Nat) : Str :=
  resolveIncludesAux fs (4 - depth) content

/-! ## Data model -/

/-- `models.App`: the canonical discovered-application record (the fields
used by the discovery engine). -/
structure App where
  name : Str
  url : Str
  icon : Str
  description : Str
  status : Str
deriving DecidableEq, Repr

/-- Modelled from the spec: `models.RawDiscoveredApp` (the `models` package
is not among the provided sources) — "an internal, source-tagged alias of
`DiscoveredApp` used only to reconstruct which source produced a given
URL". -/
structure RawApp where
  name : Str
  url : Str
  icon : Str
  description : Str
  status : Str
  source : Str
deriving DecidableEq, Repr

/-- Modelled from the spec: `models.DiscoveredAppOverride` (the `models`
package is not among the provided sources).  Field set taken from the
handler code (`URL`, `Source`, `Hidden`, `Category`, `Groups`) plus the
cosmetic display-name override the spec describes. -/
structure DiscoveredAppOverride where
  url : Str
  source : Str
  name : Str
  hidden : Bool
  category : Str
  groups : List Str
deriving DecidableEq, Repr

/-! ## Unraid collector: container-to-app mapping (`queryUnraidContainers`) -/

/-- `models.UnraidContainer` (the fields the mapping loop reads).  The Go
label map is modelled as an association list; `lookupLabel` is a Go map
read, returning the zero value `""` for a missing key. -/
structure UnraidContainer where
  id : Str
  names : List Str
  state : Str
  labels : List (Str × Str)
  image : Str
deriving DecidableEq, Repr

/-- Go map read `labels[key]` (empty string when the key is absent). -/
def lookupLabel (labels : List (Str × Str)) (key : Str) : Str :=
  match labels.find? (fun kv => kv.1 == key) with
  | none => []
  | some kv => kv.2

/-- Go `strings.TrimPrefix(s, pre)`. -/
def trimPrefix (s pre : Str) : Str :=
  if pre.isPrefixOf s then s.drop pre.length else s

/-- Go `strings.TrimSuffix(s, suf)`. -/
def trimSuffix (s suf : Str) : Str :=
  if suf.isSuffixOf s then s.take (s.length - suf.length) else s

/-- Go `strings.ToUpper` restricted to ASCII. -/
def goToUpper (s : Str) : Str := s.map Char.toUpper

/-- Modelled from the Go dependency `golang.org/x/text/cases`:
`cases.Title(language.English)` restricted to ASCII — the first letter of
each word is upper-cased and the other letters lower-cased, where a word
starts at the beginning or after a non-alphanumeric character. -/
def asciiTitle (s : Str) : Str :=
  go true s
where
  go : Bool → Str → Str
    | _, [] => []
    | atWordStart, c :: rest =>
      (if c.isAlpha then (if atWordStart then c.toUpper else c.toLower) else c)
        :: go (!c.isAlphanum) rest

/-- Go `processUnraidIconURL(iconURL, unraidURL)`: keep an absolute
`http(s)` URL, resolve a site-relative path against the Unraid server URL,
drop anything else. -/
def processUnraidIconURL (iconURL unraidURL : Str) : Str :=
  if iconURL = [] then []
  else if (str "http://").isPrefixOf iconURL || (str "https://").isPrefixOf iconURL then
    iconURL
  else if (str "/").isPrefixOf iconURL then
    trimSuffix unraidURL (str "/") ++ iconURL
  else []

/-- The decode-independent mapping loop of `queryUnraidContainers`: one
`models.App` per container carrying a `net.unraid.docker.webui` label, in
container order; containers without the label are skipped.  No
deduplication of URLs is performed. -/
def unraidContainerApps (containers : List UnraidContainer) (unraidURL : Str) : List App :=
  containers.flatMap (fun container =>
    let webUIRaw := lookupLabel container.labels (str "net.unraid.docker.webui")
    if webUIRaw = [] then []
    else
      let name :=
        match container.names with
        | [] => str "Unknown"
        | n :: _ =>
          asciiTitle (replaceAll (str "_") (str " ")
            (replaceAll (str "-") (str " ") (trimPrefix n (str "/"))))
      let status :=
        if goToUpper container.state = str "RUNNING" then str "online"
        else str "offline"
      let webUIURL := processUnraidWebUIURL webUIRaw unraidURL
      let icon :=
        processUnraidIconURL (lookupLabel container.labels (str "net.unraid.docker.icon"))
          unraidURL
      [{ name := name
         url := webUIURL
         icon := icon
         description := str "Discovered via Unraid (image: " ++ container.image ++ str ")"
         status := status }])

/-! ## Admin handlers (`AdminDiscoveredAppsHandler` GET, `BulkDiscoveredAppsHandler`) -/

/-- Response of the GET branch of `AdminDiscoveredAppsHandler`. -/
structure AdminGetResponse where
  active : List RawApp
  stale : List DiscoveredAppOverride
deriving DecidableEq, Repr

/-- GET branch of `AdminDiscoveredAppsHandler`: `active` is the live raw
aggregate as returned by `discovery.GetAllRawDiscoveredApps`; `stale` is
every stored override whose URL is not among the active URLs.  The
override store (modelled as the list held by
`database.GetAllDiscoveredOverrides`, iterated in list order) is returned
unchanged as the second component: the GET branch performs no write. -/
def adminDiscoveredAppsGET (rawApps : List RawApp)
    (allOverrides : List DiscoveredAppOverride) :
    AdminGetResponse × List DiscoveredAppOverride :=
  let activeURLs := rawApps.map (·.url)
  let stale := allOverrides.filter (fun o => !(activeURLs.contains o.url))
  (⟨rawApps, stale⟩, allOverrides)

/-- Modelled from the spec: the annotated active set the specification
describes for the GET operation — every currently discovered record, with
the display name taken from its override when one exists (the only
override-able field the discovered-app record itself carries). -/
def specAnnotatedActive (rawApps : List RawApp)
    (allOverrides : List DiscoveredAppOverride) : List RawApp :=
  rawApps.map (fun a =>
    match allOverrides.find? (fun o => o.url == a.url) with
    | some o => { a with name := o.name }
    | none => a)

/-- `BulkDiscoveredAppsRequest` (JSON body of the bulk endpoint). -/
structure BulkRequest where
  urls : List Str
  action : Str
  category : Str
  groups : List Str
deriving DecidableEq, Repr

inductive HTTPMethod
  | get | post | put | delete | patch
deriving DecidableEq, Repr

/-- Outcome written by `BulkDiscoveredAppsHandler` (status code plus the
success payload's `updated` count). -/
inductive BulkOutcome
  | methodNotAllowed                       -- 405
  | invalidJSON                            -- 400, body empty or undecodable
  | noURLs                                 -- 400
  | tooManyURLs                            -- 400, more than 100 URLs
  | invalidAction                          -- 400
  | saveFailed                             -- 500, batch save error
  | ok (updated : Nat)                     -- 200
deriving DecidableEq, Repr

/-- Go map read `urlToSource[url]` built by the handler: later raw records
overwrite earlier ones for the same URL, and a missing URL reads as `""`. -/
def urlToSource (rawApps : List RawApp) (url : Str) : Str :=
  match (rawApps.reverse).find? (fun a => a.url == url) with
  | none => []
  | some a => a.source

/-- `database.GetDiscoveredOverride`: look up a stored override by URL. -/
def getDiscoveredOverride (store : List DiscoveredAppOverride) (url : Str) :
    Option DiscoveredAppOverride :=
  store.find? (fun o => o.url == url)

/-- The override-building loop of `BulkDiscoveredAppsHandler`: for each URL
take the existing override or synthesize one seeded from the URL's source,
set `Hidden = false`, apply a non-empty category, and replace the groups
wholesale when a non-empty list is supplied. -/
def buildBulkOverrides (req : BulkRequest) (rawApps : List RawApp)
    (store : List DiscoveredAppOverride) : List DiscoveredAppOverride :=
  req.urls.map (fun url =>
    let existing :=
      match getDiscoveredOverride store url with
      | some o => o
      | none =>
        { url := url, source := urlToSource rawApps url, name := []
          hidden := false, category := [], groups := [] }
    let existing := { existing with hidden := false }
    let existing :=
      if req.category ≠ [] then { existing with category := req.category } else existing
    if req.groups ≠ [] then { existing with groups := req.groups } else existing)

/-- Modelled from the spec: `database.SaveDiscoveredOverridesBatch` (the
`database` package is not among the provided sources) — persist each
override, keyed by URL, replacing any stored override with the same URL. -/
def saveOverridesBatch (store : List DiscoveredAppOverride)
    (ovs : List DiscoveredAppOverride) : List DiscoveredAppOverride :=
  ovs.foldl
    (fun st o =>
      if st.any (fun e => e.url == o.url) then
        st.map (fun e => if e.url == o.url then o else e)
      else st ++ [o])
    store

/-- `BulkDiscoveredAppsHandler`.  `body` is the decoded request
(`none` = empty body or JSON decode error), `saveOk` whether the batch save
succeeds.  Result: the outcome, the override store after the request, and
whether the request touched the store (read or write) — the validation
checks all short-circuit before any store access. -/
def bulkDiscoveredAppsHandler (method : HTTPMethod) (body : Option BulkRequest)
    (rawApps : List RawApp) (store : List DiscoveredAppOverride) (saveOk : Bool) :
    BulkOutcome × List DiscoveredAppOverride × Bool :=
  if method ≠ HTTPMethod.post then (BulkOutcome.methodNotAllowed, store, false)
  else
    match body with
    | none => (BulkOutcome.invalidJSON, store, false)
    | some req =>
      if req.urls.length = 0 then (BulkOutcome.noURLs, store, false)
      else if req.urls.length > 100 then (BulkOutcome.tooManyURLs, store, false)
      else if req.action ≠ str "show" then (BulkOutcome.invalidAction, store, false)
      else
        let overrides := buildBulkOverrides req rawApps store
        if saveOk then
          (BulkOutcome.ok overrides.length, saveOverridesBatch store overrides, true)
        else (BulkOutcome.saveFailed, store, true)

/-! ## Discovery loop supervisor (`StartNginxDiscoveryLoop` / `StopNginxDiscoveryLoop`,
`StartUnraidDiscoveryLoop` / `StopUnraidDiscoveryLoop`) -/

/-- Shallow state of one discovery source's manager, as guarded by
`app.DiscoveryMu`: whether a live stop channel exists (`Stop != nil`), the
enabled flag, the cached snapshot, the number of live worker goroutines,
and how many `close()` calls have been performed on a stop channel (to
state the no-double-close property).  The nginx and Unraid supervisors have
the identical structure; this models both. -/
structure SourceState where
  stopCh : Bool
  enabled : Bool
  apps : List App
  workers : Nat
  closes : Nat
deriving DecidableEq, Repr

/-- `StartXxxDiscoveryLoop`: under the lock, return immediately when a stop
channel already exists (already running); otherwise set the enabled flag,
create the stop channel and spawn the one worker goroutine. -/
def startLoop (st : SourceState) : SourceState :=
  if st.stopCh then st
  else { st with stopCh := true, enabled := true, workers := st.workers + 1 }

/-- `StopXxxDiscoveryLoop`: under the lock, close the stop channel only
when one exists and nil it; then `Wg.Wait()` joins the worker (the closed
channel makes it exit); then, under the lock again, clear the enabled flag
and the cached snapshot. -/
def stopLoop (st : SourceState) : SourceState :=
  let st1 :=
    if st.stopCh then
      { st with
        stopCh := false
        closes := st.closes + 1
        workers := st.workers - 1 }
    else st
  { st1 with enabled := false, apps := [] }

/-- Exactly one worker exists for a running source and none for a stopped
one. -/
def SourceState.WF (st : SourceState) : Prop :=
  st.workers = if st.stopCh then 1 else 0

/-! ## Worker loop fault containment (the discovery goroutine body) -/

/-- Behaviour of one collection cycle: either it completes and stores a
snapshot, or it raises an unexpected fault (panic). -/
inductive CycleOutcome
  | ok (apps : List App)
  | panic
deriving DecidableEq, Repr

/-- Result of a worker goroutine run. -/
structure WorkerResult where
  snapshot : List App
  cyclesRun : Nat
  panicked : Bool
deriving DecidableEq, Repr

/-- The discovery goroutine body: one initial collection, then one
collection per tick, each cycle replacing the cached snapshot.  A panic in
a cycle unwinds to the `defer`red `recover()` at the top of the goroutine,
where it is logged — the goroutine then returns, so no later cycle runs and
the snapshot keeps its value from before the faulting cycle.  `outcomes`
lists the behaviour of the initial cycle and of each subsequent tick's
cycle until the stop signal. -/
def runWorker (snapshot : List App) : List CycleOutcome → WorkerResult
  | [] => ⟨snapshot, 0, false⟩
  | CycleOutcome.ok apps :: rest =>
    let r := runWorker apps rest
    ⟨r.snapshot, r.cyclesRun + 1, r.panicked⟩
  | CycleOutcome.panic :: _ => ⟨snapshot, 1, true⟩

/-! ## Nginx collector: directive scanners

The package-level Go regexes are translated as hand-rolled leftmost-match
scanners with RE2's leftmost-first (greedy) semantics.  For each of these
patterns maximal-munch scanning is exact, because every point of greedy
choice is followed by a disjoint character class; the single place where
RE2 would backtrack (a directive body `[^;]+` that would otherwise be
empty steals the last character of the preceding `\s+` run) is spelled
out explicitly. -/

/-- `unicode.IsSpace` restricted to ASCII (Go `strings.Fields` /
`strings.TrimSpace` white space). -/
def isUniSpace (c : Char) : Bool :=
  c == ' ' || c == '\t' || c == '\n' || c == '\x0B' || c == '\x0C' || c == '\r'

/-- Recursion core of `goFields`; every step consumes at least one
character, so fuel `s.length` is always sufficient. -/
def goFieldsAux : Nat → Str → List Str
  | 0, _ => []
  | fuel + 1, s =>
    let s1 := s.dropWhile isUniSpace
    match s1 with
    | [] => []
    | _ =>
      let w := s1.takeWhile (fun c => !(isUniSpace c))
      w :: goFieldsAux fuel (s1.drop w.length)

/-- Go `strings.Fields`: split around runs of white space. -/
def goFields (s : Str) : List Str := goFieldsAux s.length s

/-- Go `strings.Split(s, sep)` for a non-empty separator (recursion core;
every step consumes at least `sep.length ≥ 1` characters). -/
def splitOnSubAux (sep : Str) : Nat → Str → List Str
  | 0, s => [s]
  | fuel + 1, s =>
    match indexOfSub sep s with
    | none => [s]
    | some i => s.take i :: splitOnSubAux sep fuel (s.drop (i + sep.length))

/-- Go `strings.Split(s, sep)` for a non-empty separator. -/
def splitOnSub (sep s : Str) : List Str := splitOnSubAux sep (s.length + 1) s

/-- The comment-stripping pass `commentRe.ReplaceAllString(content, "")`
with `commentRe = (?m)#.*$`: every line loses its first `#` and what
follows it. -/
def stripComments (s : Str) : Str :=
  List.intercalate ['\n']
    ((s.splitOn '\n').map (fun line => line.takeWhile (fun c => !(c == '#'))))

/-- Match of `<kw>\s+([^;]+);` at the start of `s`: the keyword, at least
one `\s`, then the capture up to the `;` (with RE2's backtracking step: an
otherwise-empty capture takes the last white-space character when the run
has at least two). -/
def directiveMatchAt (kw : Str) (s : Str) : Option Str :=
  if kw.isPrefixOf s then
    let t := s.drop kw.length
    let w := t.takeWhile isGoSpace
    if w.length ≥ 1 then
      let t1 := t.drop w.length
      let body := t1.takeWhile (fun c => !(c == ';'))
      match t1.drop body.length with
      | ';' :: _ =>
        if body.length ≥ 1 then some body
        else if w.length ≥ 2 then some (w.drop (w.length - 1))
        else none
      | _ => none
    else none
  else none

/-- Recursion core of `findDirectiveCapture` (leftmost match). -/
def findDirectiveCaptureAux (kw : Str) : Nat → Str → Option Str
  | 0, _ => none
  | _ + 1, [] => none
  | fuel + 1, c :: rest =>
    match directiveMatchAt kw (c :: rest) with
    | some cap => some cap
    | none => findDirectiveCaptureAux kw fuel rest

/-- `serverNameRe.FindStringSubmatch` / `proxyPassRe.FindStringSubmatch`:
capture of the first match of `<kw>\s+([^;]+);`, for
`kw = "server_name"` or `kw = "proxy_pass"`. -/
def findDirectiveCapture (kw s : Str) : Option Str :=
  findDirectiveCaptureAux kw s.length s

/-- Match of `listen\s+(\d+)(\s+ssl)?` at the start of `s`: the port
digits, whether the optional ` ssl` group matched, and the remainder after
the match. -/
def listenMatchAt (s : Str) : Option ((Str × Bool) × Str) :=
  if (str "listen").isPrefixOf s then
    let t := s.drop 6
    let w := t.takeWhile isGoSpace
    if w.length ≥ 1 then
      let t1 := t.drop w.length
      let d := t1.takeWhile Char.isDigit
      if d.length ≥ 1 then
        let t2 := t1.drop d.length
        let w2 := t2.takeWhile isGoSpace
        if w2.length ≥ 1 ∧ (str "ssl").isPrefixOf (t2.drop w2.length) then
          some ((d, true), (t2.drop w2.length).drop 3)
        else some ((d, false), t2)
      else none
    else none
  else none

/-- Recursion core of `findListens`; every step consumes at least one
character. -/
def findListensAux : Nat → Str → List (Str × Bool)
  | 0, _ => []
  | _ + 1, [] => []
  | fuel + 1, c :: rest =>
    match listenMatchAt (c :: rest) with
    | some (cap, after) => cap :: findListensAux fuel after
    | none => findListensAux fuel rest

/-- `listenRe.FindAllStringSubmatch(s, -1)`: all non-overlapping matches of
`listen\s+(\d+)(\s+ssl)?`, as (port digits, ssl-modifier present). -/
def findListens (s : Str) : List (Str × Bool) := findListensAux s.length s

/-- Match of `location\s+(?:[=~^]*\s*)?(/[^\s{]*)\s*\{` at the start of
`s`: the location path capture and the length of the whole match (up to
and including the opening brace). -/
def locationMatchAt (s : Str) : Option (Str × Nat) :=
  if (str "location").isPrefixOf s then
    let t := s.drop 8
    let w1 := t.takeWhile isGoSpace
    if w1.length ≥ 1 then
      let t1 := t.drop w1.length
      let ops := t1.takeWhile (fun c => c == '=' || c == '~' || c == '^')
      let t2 := t1.drop ops.length
      let w2 := t2.takeWhile isGoSpace
      let t3 := t2.drop w2.length
      match t3 with
      | '/' :: tailPath =>
        let seg := tailPath.takeWhile (fun c => !(isGoSpace c || c == '{'))
        let path := '/' :: seg
        let t4 := t3.drop path.length
        let w3 := t4.takeWhile isGoSpace
        match t4.drop w3.length with
        | '{' :: _ =>
          some (path, 8 + w1.length + ops.length + w2.length + path.length
            + w3.length + 1)
        | _ => none
      | _ => none
    else none
  else none

/-- Recursion core of `findLocations`: tracks the absolute position so the
returned index is the match end (the position just after the `{`), as in
`FindAllStringSubmatchIndex`'s `locMatch[1]`. -/
def findLocationsAux : Nat → Nat → Str → List (Str × Nat)
  | 0, _, _ => []
  | _ + 1, _, [] => []
  | fuel + 1, pos, c :: rest =>
    match locationMatchAt (c :: rest) with
    | some (path, mlen) =>
      (path, pos + mlen) :: findLocationsAux fuel (pos + mlen) ((c :: rest).drop mlen)
    | none => findLocationsAux fuel (pos + 1) rest

/-- `locationRe.FindAllStringSubmatchIndex(s, -1)`: every non-overlapping
location match as (path capture, index after the opening brace). -/
def findLocations (s : Str) : List (Str × Nat) := findLocationsAux s.length 0 s

/-! ## Nginx collector: location filtering and emission (`DiscoverNginxApps`) -/

/-- `skipExtensions` of the Go source (spelled as a list; the Go map is
only ever iterated or membership-tested). -/
def skipExtensions : List Str :=
  [str ".bak", str ".dpkg-old", str ".dpkg-new", str ".dpkg-dist",
   str ".swp", str ".swo", str ".tmp", str ".orig"]

/-- `skipLocationPaths` of the Go source. -/
def skipLocationPaths : List Str :=
  [str "/", str "/.well-known", str "/api", str "/static", str "/assets",
   str "/public", str "/media", str "/uploads", str "/favicon.ico",
   str "/robots.txt", str "/health", str "/healthz", str "/metrics",
   str "/stub_status", str "/nginx_status", str "/server-status"]

/-- `skipLocationPatterns` of the Go source. -/
def skipLocationPatterns : List Str :=
  [str "/authelia/", str "/authentik/", str "/api/authz", str "/.oauth/",
   str "/oauth2/", str "/socket.io/", str "/sockjs/", str "/websocket/",
   str "/api/", str "/control/", str "/download/", str "/downloads/"]

/-- `skipLocationSuffixes` of the Go source. -/
def skipLocationSuffixes : List Str :=
  [str "/api", str "/ws", str "/wss", str "/feed", str "/rss", str "/atom",
   str "/auth", str "/login", str "/logout", str "/callback", str "/signin",
   str "/signout", str "/opds", str "/kobo"]

/-- Go `strings.TrimRight(s, cut)` for a one-character cut set. -/
def trimRightChar (s : Str) (c : Char) : Str :=
  (s.reverse.dropWhile (· == c)).reverse

/-- Go `strings.TrimLeft(s, cut)` for a one-character cut set. -/
def trimLeftChar (s : Str) (c : Char) : Str := s.dropWhile (· == c)

/-- Go `strings.ToLower` restricted to ASCII. -/
def asciiToLower (s : Str) : Str := s.map Char.toLower

/-- Go `hasRegexMetachars(path)`:
`strings.ContainsAny(path, "()[]{}*+?^$|\\")`. -/
def hasRegexMetachars (path : Str) : Bool :=
  path.any (fun c => (str "()[]\x7b\x7d*+?^$|\\").contains c)

/-- Go `shouldSkipLocation(locPath)`: regex locations, the exact-match
block list (on the path with trailing slashes trimmed, empty ⇒ `/`), the
case-insensitive substring block list, and the suffix block list. -/
def shouldSkipLocation (locPath : Str) : Bool :=
  if hasRegexMetachars locPath then true
  else
    let cleanPath0 := trimRightChar locPath '/'
    let cleanPath := if cleanPath0 = [] then str "/" else cleanPath0
    if skipLocationPaths.contains cleanPath then true
    else
      let lowerPath := asciiToLower locPath
      if skipLocationPatterns.any (fun pat => containsSub pat lowerPath) then true
      else skipLocationSuffixes.any (fun suf => suf.isSuffixOf cleanPath)

/-- Go `filepath.Ext(name)`: the suffix beginning at the final dot in the
final path element, empty when there is none. -/
def filepathExt (name : Str) : Str :=
  let rev := name.reverse
  let pre := rev.takeWhile (fun c => !(c == '.' || c == '/'))
  match rev.drop pre.length with
  | '.' :: _ => (pre ++ ['.']).reverse
  | _ => []

/-- Go `isNginxConfigFile(name)`: skip hidden files, known backup/editor
extensions (by `filepath.Ext`), and the same names as suffixes (for
multi-part extensions). -/
def isNginxConfigFile (name : Str) : Bool :=
  if (str ".").isPrefixOf name then false
  else
    let ext := filepathExt name
    if ext ≠ [] ∧ skipExtensions.contains ext then false
    else if skipExtensions.any (fun suffix => suffix.isSuffixOf name) then false
    else true

/-- The `apps` slice and `seenURLs` set threaded through one
`DiscoverNginxApps` run (`seenURLs` modelled as the list of URLs marked
true). -/
structure NginxScan where
  apps : List App
  seen : List Str
deriving DecidableEq, Repr

/-- One iteration of the location-block loop of one server block: apply
the skip filter, extract the location body, require a `proxy_pass`, drop a
URL already seen (marking new ones first), derive the display name from
the first path segment (an empty name is dropped after the URL is marked
seen), and emit the app.  The boolean is `foundLocationApps`. -/
def locationStep (protocol validHost serverBlock : Str) (loc : Str × Nat)
    (acc : NginxScan × Bool) : NginxScan × Bool :=
  let locPath := loc.1
  let st := acc.1
  let found := acc.2
  if shouldSkipLocation locPath then (st, found)
  else
    let locBlock := (extractBlock (serverBlock.drop loc.2)).1
    match findDirectiveCapture (str "proxy_pass") locBlock with
    | none => (st, found)
    | some cap =>
      let upstream := goTrimSpace cap
      let appURL := protocol ++ str "://" ++ validHost ++ locPath
      if st.seen.contains appURL then (st, found)
      else
        let seen1 := appURL :: st.seen
        let pathName0 := trimRightChar (trimLeftChar locPath '/') '/'
        let pathName :=
          match indexOfSub (str "/") pathName0 with
          | some idx => if idx > 0 then pathName0.take idx else pathName0
          | none => pathName0
        let appName := asciiTitle (replaceAll (str "-") (str " ") pathName)
        if appName = [] then ({ st with seen := seen1 }, found)
        else
          ({ apps := st.apps ++
              [{ name := appName
                 url := appURL
                 icon := []
                 description := str "Discovered via Nginx (proxied to "
                   ++ upstream ++ str ")"
                 status := str "online" }]
             seen := seen1 }, true)

/-- The location-block loop of one server block (left fold of
`locationStep` over the location matches). -/
def processLocations (protocol validHost serverBlock : Str) :
    List (Str × Nat) → NginxScan × Bool → NginxScan × Bool
  | [], acc => acc
  | loc :: more, acc =>
    processLocations protocol validHost serverBlock more
      (locationStep protocol validHost serverBlock loc acc)

/-- The fallback of one server block: when no location-level app was
emitted, use the block's own `proxy_pass` (if any) and emit one app named
after the host's first dot-separated label. -/
def serverFallback (protocol validHost serverBlock : Str) (st1 : NginxScan) :
    NginxScan :=
  match findDirectiveCapture (str "proxy_pass") serverBlock with
  | none => st1
  | some cap2 =>
    let upstream := goTrimSpace cap2
    let appURL := protocol ++ str "://" ++ validHost
    if st1.seen.contains appURL then st1
    else
      let name :=
        match splitOnSub (str ".") validHost with
        | [] => validHost
        | p :: _ => asciiTitle (replaceAll (str "-") (str " ") p)
      { apps := st1.apps ++
          [{ name := name
             url := appURL
             icon := []
             description := str "Discovered via Nginx (proxied to "
               ++ upstream ++ str ")"
             status := str "online" }]
        seen := appURL :: st1.seen }

/-- One fragment after a `"server \x7b"` split: extract the block body,
choose the first valid `server_name` token, derive the protocol from the
`listen` directives, run the location loop, and fall back to the block's
own `proxy_pass` when no location app was emitted. -/
def processServerBlock (st : NginxScan) (block : Str) : NginxScan :=
  let serverBlock := (extractBlock block).1
  match findDirectiveCapture (str "server_name") serverBlock with
  | none => st
  | some cap =>
    let serverNames := goFields cap
    let validHost := (serverNames.map goTrimSpace).find? (fun n =>
      !(n == str "_" || n == str "localhost" || n == str "default_server" || n == []))
    match validHost with
    | none => st
    | some validHost =>
      let protocol :=
        if (findListens serverBlock).any (fun m => m.1 == str "443" || m.2) then
          str "https"
        else str "http"
      let res := processLocations protocol validHost serverBlock
        (findLocations serverBlock) (st, false)
      if res.2 then res.1
      else serverFallback protocol validHost serverBlock res.1

/-- `processConfigFile`: read result (`none` = read error, file skipped),
include inlining, one comment-stripping pass, split on the literal
`"server {"`, and the per-block loop (the fragment before the first
`"server {"` is skipped). -/
def processConfigFile (fs : NginxFS) (st : NginxScan) (content : Option Str) :
    NginxScan :=
  match content with
  | none => st
  | some data =>
    let configContent := stripComments (resolveIncludes fs data 0)
    ((splitOnSub (str "server \x7b") configContent).drop 1).foldl processServerBlock st

/-- One directory entry of the configured nginx directory, with the result
of reading it (`content = none` models a read error). -/
structure DirEntry where
  name : Str
  isDir : Bool
  content : Option Str

/-! ## Nginx collector: cross-app sub-path deduplication (`dedupeAppsByBasePath`) -/

/-- Go host extraction in `dedupeAppsByBasePath`: strip a `scheme://`
prefix, then cut at the first `/`. -/
def hostOf (url : Str) : Str :=
  let host :=
    match indexOfSub (str "://") url with
    | some idx => url.drop (idx + 3)
    | none => url
  match indexOfSub (str "/") host with
  | some idx => host.take idx
  | none => host

/-- The hosts of the grouping map `byHost` in first-appearance order (Go
iterates the map in unspecified order; the order does not affect any
property proved here). -/
def hostKeys (apps : List App) : List Str :=
  apps.foldl (fun ks a => if ks.contains (hostOf a.url) then ks else ks ++ [hostOf a.url]) []

/-- The per-host sort relation of `dedupeAppsByBasePath` (URL length,
ascending). -/
def urlLenLE (a b : App) : Prop := a.url.length ≤ b.url.length

instance : DecidableRel urlLenLE := fun _ _ => Nat.decLe _ _

instance : IsTotal App urlLenLE := ⟨fun _ _ => Nat.le_total _ _⟩

instance : IsTrans App urlLenLE := ⟨fun _ _ _ => Nat.le_trans⟩

/-- The per-host sort `sort.Slice(hostApps, len(URL) <)` modelled as a
stable insertion sort by URL length ascending (Go's sort is unstable; the
order of equal-length URLs is unspecified there). -/
def sortByUrlLen (apps : List App) : List App :=
  apps.insertionSort urlLenLE

/-- The keep loop of `dedupeAppsByBasePath`: keep an app unless its
trailing-slash-trimmed URL extends an already-kept URL by `/`; kept apps
append their trimmed URL to `kept`. -/
def keepFold : List App → List Str → List App
  | [], _ => []
  | a :: rest, kept =>
    let nu := trimRightChar a.url '/'
    if kept.any (fun k => (k ++ ['/']).isPrefixOf nu) then keepFold rest kept
    else a :: keepFold rest (kept ++ [nu])

/-- Go `dedupeAppsByBasePath(apps)`: group by host, sort each host's apps
by URL length ascending, and keep only apps that are not sub-paths of an
already-kept app of the same host. -/
def dedupeAppsByBasePath (apps : List App) : List App :=
  if apps = [] then apps
  else
    (hostKeys apps).flatMap (fun h =>
      keepFold (sortByUrlLen (apps.filter (fun a => hostOf a.url == h))) [])

/-- `DiscoverNginxApps`, from the directory listing on: skip directories
and non-config file names, process each remaining file's content, then
apply the sub-path deduplication.  (`fs` supplies the include-resolution
environment; the enabled check, config-path checks and the final
`SetApps` publication sit outside this pure core.) -/
def discoverNginxApps (fs : NginxFS) (entries : List DirEntry) : List App :=
  let st := entries.foldl
    (fun st e =>
      if e.isDir then st
      else if isNginxConfigFile e.name then processConfigFile fs st e.content
      else st)
    ⟨[], []⟩
  dedupeAppsByBasePath st.apps

/-- Invariant of one `DiscoverNginxApps` run: emitted URLs are pairwise
distinct, and every emitted URL has been marked seen. -/
def ScanInv (st : NginxScan) : Prop :=
  (st.apps.map (·.url)).Nodup ∧ ∀ a ∈ st.apps, a.url ∈ st.seen

/-! ## Theorems -/

theorem indexOfSub_bound (pat s : Str) (i : Nat) (h : indexOfSub pat s = some i) :
    pat.isPrefixOf (s.drop i) = true ∧ i + pat.length ≤ s.length := by
  induction s generalizing i with
  | nil =>
    rw [indexOfSub] at h
    by_cases hp : pat.isPrefixOf [] = true
    · simp [hp] at h
      subst h
      constructor
      · simpa using hp
      · have := List.IsPrefix.length_le (List.isPrefixOf_iff_prefix.mp hp)
        simpa using this
    · simp [hp] at h
  | cons c rest ih =>
    rw [indexOfSub] at h
    by_cases hp : pat.isPrefixOf (c :: rest) = true
    · simp [hp] at h
      subst h
      refine ⟨by simpa using hp, ?_⟩
      have := List.IsPrefix.length_le (List.isPrefixOf_iff_prefix.mp hp)
      simpa using this
    · simp [hp] at h
      obtain ⟨j, hj, rfl⟩ := h
      obtain ⟨h1, h2⟩ := ih j hj
      refine ⟨by simpa using h1, by simp; omega⟩

theorem indexOfSub_min (pat s : Str) (i : Nat) (h : indexOfSub pat s = some i) :
    ∀ j < i, ¬ (pat.isPrefixOf (s.drop j) = true) := by
  induction s generalizing i with
  | nil =>
    rw [indexOfSub] at h
    by_cases hp : pat.isPrefixOf ([] : Str) = true
    · simp [hp] at h; subst h; omega
    · simp [hp] at h
  | cons c rest ih =>
    rw [indexOfSub] at h
    by_cases hp : pat.isPrefixOf (c :: rest) = true
    · simp [hp] at h; subst h; omega
    · simp [hp] at h
      obtain ⟨k, hk, rfl⟩ := h
      intro j hj
      cases j with
      | zero => simpa using hp
      | succ j' =>
        simp only [List.drop_succ_cons]
        exact ih k hk j' (by omega)

theorem indexOfSub_none_of_not_occurs (pat s : Str) (h : ¬ pat <:+: s) :
    indexOfSub pat s = none := by
  induction s with
  | nil =>
    rw [indexOfSub]
    by_cases hp : pat.isPrefixOf ([] : Str) = true
    · exact absurd (List.isPrefixOf_iff_prefix.mp hp).isInfix h
    · simp [hp]
  | cons c rest ih =>
    rw [indexOfSub]
    by_cases hp : pat.isPrefixOf (c :: rest) = true
    · exact absurd (List.isPrefixOf_iff_prefix.mp hp).isInfix h
    · simp only [hp, Bool.false_eq_true, if_false]
      rw [ih (fun hi => h (List.infix_cons hi))]
      simp

theorem replaceAllAux_eq_self (pat rep : Str) (fuel : Nat) (s : Str)
    (h : ¬ pat <:+: s) : replaceAllAux pat rep fuel s = s := by
  induction fuel generalizing s with
  | zero => rw [replaceAllAux]
  | succ fuel ih =>
    cases s with
    | nil => rw [replaceAllAux]
    | cons c rest =>
      rw [replaceAllAux]
      have hp : ¬ (pat ≠ [] ∧ pat.isPrefixOf (c :: rest) = true) := by
        rintro ⟨-, hpre⟩
        exact h (List.isPrefixOf_iff_prefix.mp hpre).isInfix
      simp only [hp, if_neg, not_false_iff]
      rw [ih rest (fun hi => h (List.infix_cons hi))]

theorem replaceAll_eq_self (pat rep s : Str) (h : ¬ pat <:+: s) :
    replaceAll pat rep s = s :=
  replaceAllAux_eq_self pat rep s.length s h

theorem portLoopAux_eq_self_of_no_close (fuel : Nat) (s : Str)
    (h : ']' ∉ s) : portLoopAux fuel s = s := by
  cases fuel with
  | zero => rw [portLoopAux]
  | succ fuel =>
    rw [portLoopAux]
    cases h1 : indexOfSub portPat s with
    | none => rfl
    | some start =>
      dsimp only
      cases h2 : indexOfSub [']'] (s.drop start) with
      | none => rfl
      | some e =>
        exfalso
        have hpre := (indexOfSub_bound [']'] (s.drop start) e h2).1
        have := List.isPrefixOf_iff_prefix.mp hpre
        obtain ⟨t, ht⟩ := this
        have : ']' ∈ (s.drop start).drop e := by rw [← ht]; simp
        exact h (List.mem_of_mem_drop (List.mem_of_mem_drop this))

theorem portLoop_eq_self_of_no_close (s : Str) (h : ']' ∉ s) :
    portLoop s = s :=
  portLoopAux_eq_self_of_no_close s.length s h

theorem portLoopAux_eq_self_of_not_occurs (fuel : Nat) (s : Str)
    (h : ¬ portPat <:+: s) : portLoopAux fuel s = s := by
  cases fuel with
  | zero => rw [portLoopAux]
  | succ fuel =>
    rw [portLoopAux]
    rw [indexOfSub_none_of_not_occurs portPat s h]

theorem portLoop_eq_self_of_not_occurs (s : Str) (h : ¬ portPat <:+: s) :
    portLoop s = s :=
  portLoopAux_eq_self_of_not_occurs s.length s h

/-- C6: the WebUI placeholder substitution satisfies both reference cases;
every `[IP]` occurrence is replaced by the management host's hostname and
every balanced `[PORT:default]` occurrence by its default (shown on a
multi-occurrence input); and an input without a placeholder of either
form, or whose `[PORT:` has no closing bracket, is left unchanged. -/
theorem c6_placeholder_substitution :
    processUnraidWebUIURL (str "http://[IP]:32400/web") (str "http://192.168.1.100")
      = str "http://192.168.1.100:32400/web"
    ∧ processUnraidWebUIURL (str "http://[IP]:[PORT:8080]/") (str "http://192.168.1.100")
      = str "http://192.168.1.100:8080/"
    ∧ processUnraidWebUIURL (str "http://[IP]/[IP]/[PORT:1][PORT:22]") (str "http://h")
      = str "http://h/h/122"
    ∧ (∀ w u : Str, ¬ ipPat <:+: w → ¬ portPat <:+: w →
        processUnraidWebUIURL w u = w)
    ∧ (∀ s : Str, ']' ∉ s → portLoop s = s) := by
  refine ⟨by rfl, by rfl, by rfl, ?_, ?_⟩
  · intro w u h1 h2
    unfold processUnraidWebUIURL
    rw [replaceAll_eq_self _ _ _ h1]
    exact portLoop_eq_self_of_not_occurs w h2
  · exact portLoop_eq_self_of_no_close

/-- Witness for `c6_placeholder_substitution`: a URL with no placeholders
passes through unchanged. -/
theorem c6_placeholder_substitution_witness :
    processUnraidWebUIURL (str "http://plain/web") (str "http://h")
      = str "http://plain/web" :=
  c6_placeholder_substitution.2.2.2.1 (str "http://plain/web") (str "http://h")
    (by decide) (by decide)

/-- C8 (amended ingredients are not needed — the claim holds): include
inlining is total; past the depth cap the content is returned with its
include directives unexpanded; and on a self-referential include graph
(every glob resolves to a file whose content is again `include a;`) the
expansion terminates, leaving the directive unexpanded at the cap. -/
theorem c8_include_depth_cap :
    (∀ (fs : NginxFS) (content : Str) (depth : Nat), 3 < depth →
        resolveIncludes fs content depth = content)
    ∧ resolveIncludes
        ⟨fun _ => true, fun p => some [p], fun p => some p, fun _ => some 10,
          fun _ => some (str "include a;")⟩
        (str "include a;") 0 = str "include a;\n\n\n\n" := by
  constructor
  · intro fs content depth h
    have h0 : 4 - depth = 0 := by omega
    unfold resolveIncludes
    rw [h0]
    rfl
  · rfl

/-- Witness for `c8_include_depth_cap`: at depth 4 the content is returned
unchanged. -/
theorem c8_include_depth_cap_witness :
    resolveIncludes
      ⟨fun _ => true, fun p => some [p], fun p => some p, fun _ => some 10,
        fun _ => some (str "include a;")⟩
      (str "include x;") 4 = str "include x;" :=
  c8_include_depth_cap.1 _ (str "include x;") 4 (by omega)

/-- C1 counterexample: it is not the case that every scheduled tick still
runs after a faulting cycle — a worker whose first cycle panics runs no
further cycle, so the run executes 1 cycle, not one per outcome. -/
theorem c1_counterexample :
    ¬ (∀ (s : List App) (outs : List CycleOutcome),
        (runWorker s outs).cyclesRun = outs.length) := by
  intro h
  have := h [] [CycleOutcome.panic, CycleOutcome.ok []]
  simp [runWorker] at this

/-- C1 amended: a faulting cycle is caught at the worker boundary (the
run result is defined and marked panicked, i.e. logged) and leaves the
prior snapshot untouched, but the goroutine then returns: no later cycle
runs.  A run without faults executes every cycle. -/
theorem c1_panic_contained_loop_exits :
    (∀ (s : List App) (rest : List CycleOutcome),
        runWorker s (CycleOutcome.panic :: rest) = ⟨s, 1, true⟩)
    ∧ (∀ (s : List App) (outs : List CycleOutcome), CycleOutcome.panic ∉ outs →
        (runWorker s outs).cyclesRun = outs.length
        ∧ (runWorker s outs).panicked = false) := by
  constructor
  · intro s rest; rfl
  · intro s outs h
    induction outs generalizing s with
    | nil => exact ⟨rfl, rfl⟩
    | cons o rest ih =>
      cases o with
      | ok apps =>
        have hrest : CycleOutcome.panic ∉ rest := fun hm => h (List.mem_cons_of_mem _ hm)
        have := ih apps hrest
        simp [runWorker, this.1, this.2]
      | panic => exact absurd (List.mem_cons_self _ _) h

/-- Witness for `c1_panic_contained_loop_exits`: a fault-free run executes
its single cycle. -/
theorem c1_panic_contained_loop_exits_witness :
    (runWorker [] [CycleOutcome.ok []]).cyclesRun = [CycleOutcome.ok []].length
    ∧ (runWorker [] [CycleOutcome.ok []]).panicked = false :=
  c1_panic_contained_loop_exits.2 [] [CycleOutcome.ok []] (by decide)

/-- C9: `Start` on a running source is a no-op and spawns no second worker
(the one-worker-per-running-source invariant is preserved by both
operations); `Stop` on a stopped source performs no second close of the
stop channel and, on an already-cleared stopped source, is the identity;
a completed `Stop` leaves the source stopped with its snapshot cleared. -/
theorem c9_lifecycle_idempotent :
    (∀ st : SourceState, st.stopCh = true → startLoop st = st)
    ∧ (∀ st : SourceState, startLoop (startLoop st) = startLoop st)
    ∧ (∀ st : SourceState, st.WF → (startLoop st).WF ∧ (stopLoop st).WF)
    ∧ (∀ st : SourceState, st.stopCh = false → (stopLoop st).closes = st.closes)
    ∧ (∀ st : SourceState, stopLoop (stopLoop st) = stopLoop st)
    ∧ (∀ st : SourceState, (stopLoop st).stopCh = false
        ∧ (stopLoop st).enabled = false ∧ (stopLoop st).apps = []) := by
  refine ⟨?_, ?_, ?_, ?_, ?_, ?_⟩
  · intro st h; simp [startLoop, h]
  · intro st
    by_cases h : st.stopCh <;> simp [startLoop, h]
  · intro st hwf
    unfold SourceState.WF at hwf ⊢
    by_cases h : st.stopCh <;> simp [startLoop, stopLoop, h] at hwf ⊢ <;> omega
  · intro st h; simp [stopLoop, h]
  · intro st
    by_cases h : st.stopCh <;> simp [stopLoop, h]
  · intro st
    by_cases h : st.stopCh <;> simp [stopLoop, h]

/-- Witness for `c9_lifecycle_idempotent`: the invariant is preserved from
a concrete running state. -/
theorem c9_lifecycle_idempotent_witness :
    (startLoop ⟨true, true, [], 1, 0⟩).WF ∧ (stopLoop ⟨true, true, [], 1, 0⟩).WF :=
  c9_lifecycle_idempotent.2.2.1 ⟨true, true, [], 1, 0⟩ (by simp [SourceState.WF])

/-- C3 counterexample: the GET active set is not annotated with override
values — with one discovered record named `A` at URL `u` and a stored
override renaming `u` to `B`, the handler returns the raw record, not the
annotated one. -/
theorem c3_counterexample :
    ¬ (∀ (raw : List RawApp) (ovs : List DiscoveredAppOverride),
        (adminDiscoveredAppsGET raw ovs).1.active = specAnnotatedActive raw ovs) := by
  intro h
  exact absurd
    (h [⟨str "A", str "u", [], [], str "online", str "nginx"⟩]
       [⟨str "u", str "nginx", str "B", false, [], []⟩])
    (by decide)

/-- C3 amended: the GET operation's active set is the raw live aggregate,
unannotated — overrides do not alter active entries in this response (they
surface only in `stale`); every currently discovered URL appears, and the
override store is left unchanged. -/
theorem c3_active_is_raw_unannotated :
    ∀ (raw : List RawApp) (ovs : List DiscoveredAppOverride),
      (adminDiscoveredAppsGET raw ovs).1.active = raw
      ∧ (adminDiscoveredAppsGET raw ovs).1.active.map (·.url) = raw.map (·.url)
      ∧ (adminDiscoveredAppsGET raw ovs).2 = ovs :=
  fun _ _ => ⟨rfl, rfl, rfl⟩

/-- C4: an override whose URL is absent from the live aggregate is placed
in the stale set, is not in the active set, and survives the request — the
GET operation returns the override store unchanged. -/
theorem c4_stale_override_retained :
    ∀ (raw : List RawApp) (ovs : List DiscoveredAppOverride)
      (o : DiscoveredAppOverride),
      o ∈ ovs → o.url ∉ raw.map (·.url) →
      o ∈ (adminDiscoveredAppsGET raw ovs).1.stale
      ∧ o.url ∉ (adminDiscoveredAppsGET raw ovs).1.active.map (·.url)
      ∧ (adminDiscoveredAppsGET raw ovs).2 = ovs := by
  intro raw ovs o ho hurl
  refine ⟨?_, hurl, rfl⟩
  simp only [adminDiscoveredAppsGET, List.mem_filter]
  exact ⟨ho, by simpa using hurl⟩

/-- Witness for `c4_stale_override_retained`. -/
theorem c4_stale_override_retained_witness :
    (⟨str "u", [], [], false, [], []⟩ : DiscoveredAppOverride)
      ∈ (adminDiscoveredAppsGET [] [⟨str "u", [], [], false, [], []⟩]).1.stale :=
  (c4_stale_override_retained [] [⟨str "u", [], [], false, [], []⟩]
    ⟨str "u", [], [], false, [], []⟩ (by decide) (by decide)).1

/-- C5: the bulk endpoint validates in short-circuiting order — non-POST
⇒ 405 (regardless of body); POST with an empty/undecodable body ⇒ 400;
zero URLs ⇒ 400; more than 100 URLs ⇒ 400; exactly 100 URLs passes the
size check (and a valid `show` request with 100 URLs updates 100
overrides, touching the store); a non-`show` action ⇒ 400.  In every
rejected case the store is untouched and unchanged, and conversely a
request that touches the store passed every check. -/
theorem c5_bulk_validation_order :
    (∀ (m : HTTPMethod) (body : Option BulkRequest) (raw : List RawApp)
        (store : List DiscoveredAppOverride) (ok : Bool), m ≠ HTTPMethod.post →
        bulkDiscoveredAppsHandler m body raw store ok
          = (BulkOutcome.methodNotAllowed, store, false))
    ∧ (∀ raw store ok, bulkDiscoveredAppsHandler HTTPMethod.post none raw store ok
        = (BulkOutcome.invalidJSON, store, false))
    ∧ (∀ (req : BulkRequest) raw store ok, req.urls = [] →
        bulkDiscoveredAppsHandler HTTPMethod.post (some req) raw store ok
          = (BulkOutcome.noURLs, store, false))
    ∧ (∀ (req : BulkRequest) raw store ok, req.urls.length > 100 →
        bulkDiscoveredAppsHandler HTTPMethod.post (some req) raw store ok
          = (BulkOutcome.tooManyURLs, store, false))
    ∧ (∀ (req : BulkRequest) raw store ok, req.urls ≠ [] → req.urls.length ≤ 100 →
        req.action ≠ str "show" →
        bulkDiscoveredAppsHandler HTTPMethod.post (some req) raw store ok
          = (BulkOutcome.invalidAction, store, false))
    ∧ (∀ (req : BulkRequest) raw store, req.urls.length = 100 →
        req.action = str "show" →
        (bulkDiscoveredAppsHandler HTTPMethod.post (some req) raw store true).1
          = BulkOutcome.ok 100
        ∧ (bulkDiscoveredAppsHandler HTTPMethod.post (some req) raw store true).2.2
          = true)
    ∧ (∀ m body raw store ok,
        (bulkDiscoveredAppsHandler m body raw store ok).2.2 = true →
        m = HTTPMethod.post ∧ ∃ req, body = some req ∧ req.urls ≠ []
          ∧ req.urls.length ≤ 100 ∧ req.action = str "show") := by
  refine ⟨?_, ?_, ?_, ?_, ?_, ?_, ?_⟩
  · intro m body raw store ok h
    simp [bulkDiscoveredAppsHandler, h]
  · intro raw store ok
    simp [bulkDiscoveredAppsHandler]
  · intro req raw store ok h
    simp [bulkDiscoveredAppsHandler, h]
  · intro req raw store ok h
    have h0 : ¬ (req.urls.length = 0) := by omega
    simp [bulkDiscoveredAppsHandler, h0, h]
  · intro req raw store ok h1 h2 h3
    have h0 : ¬ (req.urls.length = 0) := by
      simpa [List.length_eq_zero] using h1
    have h2' : ¬ (req.urls.length > 100) := by omega
    simp [bulkDiscoveredAppsHandler, h0, h2', h3]
  · intro req raw store h1 h2
    have h0 : ¬ (req.urls.length = 0) := by omega
    have h2' : ¬ (req.urls.length > 100) := by omega
    simp [bulkDiscoveredAppsHandler, h0, h2', h2, buildBulkOverrides, h1]
  · intro m body raw store ok h
    by_cases hm : m = HTTPMethod.post
    · subst hm
      cases body with
      | none => simp [bulkDiscoveredAppsHandler] at h
      | some req =>
        by_cases h0 : req.urls.length = 0
        · simp [bulkDiscoveredAppsHandler, h0] at h
        · by_cases h100 : req.urls.length > 100
          · simp [bulkDiscoveredAppsHandler, h0, h100] at h
          · by_cases hact : req.action = str "show"
            · exact ⟨rfl, req, rfl, by simpa [List.length_eq_zero] using h0,
                by omega, hact⟩
            · simp [bulkDiscoveredAppsHandler, h0, h100, hact] at h
    · simp [bulkDiscoveredAppsHandler, hm] at h

/-- Witness for `c5_bulk_validation_order`: a GET request is rejected with
405 without touching the store. -/
theorem c5_bulk_validation_order_witness :
    bulkDiscoveredAppsHandler HTTPMethod.get none [] [] true
      = (BulkOutcome.methodNotAllowed, [], false) :=
  c5_bulk_validation_order.1 HTTPMethod.get none [] [] true (by decide)

theorem scanState_take_succ (s : Str) (i : Nat) (c : Char) (h : s[i]? = some c) :
    scanState (s.take (i + 1)) = commentDepthStep (scanState (s.take i)) c := by
  rw [List.take_succ, h]
  simp [scanState, List.foldl_append]

theorem extractBlockAux_spec (s : Str) :
    ∀ (t : Str) (i : Nat) (inC : Bool) (d : Int),
      t = s.drop i → i ≤ s.length → scanState (s.take i) = (inC, d) → 1 ≤ d →
      (extractBlockAux s t i inC d = (s, -1)
        ∧ ∀ j, i ≤ j → j < s.length → (scanState (s.take (j + 1))).2 ≠ 0)
      ∨ (∃ k, i ≤ k ∧ k < s.length
          ∧ extractBlockAux s t i inC d = (s.take k, (k : Int))
          ∧ s[k]? = some '}'
          ∧ (scanState (s.take (k + 1))).2 = 0
          ∧ ∀ j, i ≤ j → j < k → (scanState (s.take (j + 1))).2 ≠ 0) := by
  intro t
  induction t with
  | nil =>
    intro i inC d ht hi hscan hd
    left
    refine ⟨by rw [extractBlockAux], ?_⟩
    intro j hij hjl
    exfalso
    have hlen := congrArg List.length ht
    simp [List.length_drop] at hlen
    omega
  | cons c rest ih =>
    intro i inC d ht hi hscan hd
    have hget : s[i]? = some c := by
      have h0 : (s.drop i)[0]? = some c := by rw [← ht]; simp
      rwa [List.getElem?_drop] at h0
    have hrest : rest = s.drop (i + 1) := by
      have h0 : (s.drop i).tail = s.drop (i + 1) := by
        rw [List.tail_drop]
      rw [← h0, ← ht]
      rfl
    have hilt : i < s.length := by
      have := List.getElem?_eq_some_iff.mp hget
      exact this.1
    have hstep : scanState (s.take (i + 1)) = commentDepthStep (inC, d) c := by
      rw [scanState_take_succ s i c hget, hscan]
    rw [extractBlockAux]
    by_cases h1 : c = '\n'
    · have hstate2 : scanState (s.take (i + 1)) = (false, d) := by
        rw [hstep]; simp [commentDepthStep, h1]
      simp only [h1, if_pos rfl]
      rcases ih (i + 1) false d hrest (by omega) hstate2 hd with
        ⟨he, hall⟩ | ⟨k, hk1, hk2, he, hgk, hz, hmin⟩
      · left
        refine ⟨he, ?_⟩
        intro j hij hjl
        rcases Nat.lt_or_ge j (i + 1) with hj | hj
        · have : j = i := by omega
          subst this
          rw [hstate2]
          intro h0; simp at h0; omega
        · exact hall j hj hjl
      · right
        refine ⟨k, by omega, hk2, he, hgk, hz, ?_⟩
        intro j hij hjl
        rcases Nat.lt_or_ge j (i + 1) with hj | hj
        · have : j = i := by omega
          subst this
          rw [hstate2]
          intro h0; simp at h0; omega
        · exact hmin j hj hjl
    · by_cases h2 : inC = true
      · have hstate2 : scanState (s.take (i + 1)) = (true, d) := by
          rw [hstep]; simp [commentDepthStep, h1, h2]
        simp only [h1, if_neg, h2, if_pos, if_true]
        rcases ih (i + 1) true d hrest (by omega) hstate2 hd with
          ⟨he, hall⟩ | ⟨k, hk1, hk2, he, hgk, hz, hmin⟩
        · left
          refine ⟨by simpa [h1, h2] using he, ?_⟩
          intro j hij hjl
          rcases Nat.lt_or_ge j (i + 1) with hj | hj
          · have : j = i := by omega
            subst this
            rw [hstate2]
            intro h0; simp at h0; omega
          · exact hall j hj hjl
        · right
          refine ⟨k, by omega, hk2, by simpa [h1, h2] using he, hgk, hz, ?_⟩
          intro j hij hjl
          rcases Nat.lt_or_ge j (i + 1) with hj | hj
          · have : j = i := by omega
            subst this
            rw [hstate2]
            intro h0; simp at h0; omega
          · exact hmin j hj hjl
      · have h2' : inC = false := by
          cases inC
          · rfl
          · exact absurd rfl h2
        subst h2'
        by_cases h3 : c = '#'
        · have hstate2 : scanState (s.take (i + 1)) = (true, d) := by
            rw [hstep]; simp [commentDepthStep, h1, h3]
          simp only [h1, h3, if_neg, if_pos, Bool.false_eq_true, if_false]
          rcases ih (i + 1) true d hrest (by omega) hstate2 hd with
            ⟨he, hall⟩ | ⟨k, hk1, hk2, he, hgk, hz, hmin⟩
          · left
            refine ⟨by simpa [h1, h3] using he, ?_⟩
            intro j hij hjl
            rcases Nat.lt_or_ge j (i + 1) with hj | hj
            · have : j = i := by omega
              subst this
              rw [hstate2]
              intro h0; simp at h0; omega
            · exact hall j hj hjl
          · right
            refine ⟨k, by omega, hk2, by simpa [h1, h3] using he, hgk, hz, ?_⟩
            intro j hij hjl
            rcases Nat.lt_or_ge j (i + 1) with hj | hj
            · have : j = i := by omega
              subst this
              rw [hstate2]
              intro h0; simp at h0; omega
            · exact hmin j hj hjl
        · by_cases h4 : c = '{'
          · have hstate2 : scanState (s.take (i + 1)) = (false, d + 1) := by
              rw [hstep]; simp [commentDepthStep, h1, h3, h4]
            simp only [h1, h3, h4, if_neg, if_pos, Bool.false_eq_true, if_false]
            rcases ih (i + 1) false (d + 1) hrest (by omega) hstate2 (by omega) with
              ⟨he, hall⟩ | ⟨k, hk1, hk2, he, hgk, hz, hmin⟩
            · left
              refine ⟨by simpa [h1, h3, h4] using he, ?_⟩
              intro j hij hjl
              rcases Nat.lt_or_ge j (i + 1) with hj | hj
              · have : j = i := by omega
                subst this
                rw [hstate2]
                intro h0; simp at h0; omega
              · exact hall j hj hjl
            · right
              refine ⟨k, by omega, hk2, by simpa [h1, h3, h4] using he, hgk, hz, ?_⟩
              intro j hij hjl
              rcases Nat.lt_or_ge j (i + 1) with hj | hj
              · have : j = i := by omega
                subst this
                rw [hstate2]
                intro h0; simp at h0; omega
              · exact hmin j hj hjl
          · by_cases h5 : c = '}'
            · have hstate2 : scanState (s.take (i + 1)) = (false, d - 1) := by
                rw [hstep]; simp [commentDepthStep, h1, h3, h4, h5]
              by_cases h6 : d - 1 = 0
              · right
                refine ⟨i, le_refl i, hilt, ?_, by rw [hget, h5], ?_, ?_⟩
                · simp [h1, h3, h4, h5, h6]
                · rw [hstate2]; simpa using h6
                · intro j hij hjl; omega
              · simp only [h1, h3, h4, h5, h6, if_neg, if_pos, Bool.false_eq_true,
                  if_false]
                rcases ih (i + 1) false (d - 1) hrest (by omega) hstate2 (by omega) with
                  ⟨he, hall⟩ | ⟨k, hk1, hk2, he, hgk, hz, hmin⟩
                · left
                  refine ⟨by simpa [h1, h3, h4, h5, h6] using he, ?_⟩
                  intro j hij hjl
                  rcases Nat.lt_or_ge j (i + 1) with hj | hj
                  · have : j = i := by omega
                    subst this
                    rw [hstate2]
                    simpa using h6
                  · exact hall j hj hjl
                · right
                  refine ⟨k, by omega, hk2,
                    by simpa [h1, h3, h4, h5, h6] using he, hgk, hz, ?_⟩
                  intro j hij hjl
                  rcases Nat.lt_or_ge j (i + 1) with hj | hj
                  · have : j = i := by omega
                    subst this
                    rw [hstate2]
                    simpa using h6
                  · exact hmin j hj hjl
            · have hstate2 : scanState (s.take (i + 1)) = (false, d) := by
                rw [hstep]; simp [commentDepthStep, h1, h3, h4, h5]
              simp only [h1, h3, h4, h5, if_neg, Bool.false_eq_true, if_false]
              rcases ih (i + 1) false d hrest (by omega) hstate2 hd with
                ⟨he, hall⟩ | ⟨k, hk1, hk2, he, hgk, hz, hmin⟩
              · left
                refine ⟨by simpa [h1, h3, h4, h5] using he, ?_⟩
                intro j hij hjl
                rcases Nat.lt_or_ge j (i + 1) with hj | hj
                · have : j = i := by omega
                  subst this
                  rw [hstate2]
                  intro h0; simp at h0; omega
                · exact hall j hj hjl
              · right
                refine ⟨k, by omega, hk2, by simpa [h1, h3, h4, h5] using he,
                  hgk, hz, ?_⟩
                intro j hij hjl
                rcases Nat.lt_or_ge j (i + 1) with hj | hj
                · have : j = i := by omega
                  subst this
                  rw [hstate2]
                  intro h0; simp at h0; omega
                · exact hmin j hj hjl

/-- C10: `extractBlock` is total and index-safe — for every input it
either returns the whole input with index `-1` (when the comment-aware
depth never returns to 0), or returns the prefix of length `i` together
with `i`, where `i` is within bounds, the character at `i` is the matching
`}`, and `i` is the first position at which the scan depth (starting at 1,
ignoring braces between a `#` and the next newline) returns to 0. -/
theorem c10_extract_block_safe :
    ∀ s : Str,
      (extractBlock s = (s, -1)
        ∧ ∀ j, j < s.length → (scanState (s.take (j + 1))).2 ≠ 0)
      ∨ (∃ i : Nat, i < s.length
          ∧ extractBlock s = (s.take i, (i : Int))
          ∧ s[i]? = some '}'
          ∧ (scanState (s.take (i + 1))).2 = 0
          ∧ ∀ j, j < i → (scanState (s.take (j + 1))).2 ≠ 0) := by
  intro s
  have h := extractBlockAux_spec s s 0 false 1 (by simp) (by simp) rfl (by norm_num)
  rcases h with ⟨he, hall⟩ | ⟨k, hk1, hk2, he, hg, hz, hmin⟩
  · left
    exact ⟨by rw [extractBlock]; exact he, fun j hj => hall j (Nat.zero_le j) hj⟩
  · right
    exact ⟨k, hk2, by rw [extractBlock]; exact he, hg, hz,
      fun j hj => hmin j (Nat.zero_le j) hj⟩

/-- Witness for `c10_extract_block_safe` at the one-character input `}`. -/
theorem c10_extract_block_safe_witness :
    (extractBlock (str "\x7d") = (str "\x7d", -1)
        ∧ ∀ j, j < (str "\x7d").length →
            (scanState ((str "\x7d").take (j + 1))).2 ≠ 0)
      ∨ (∃ i : Nat, i < (str "\x7d").length
          ∧ extractBlock (str "\x7d") = ((str "\x7d").take i, (i : Int))
          ∧ (str "\x7d")[i]? = some '}'
          ∧ (scanState ((str "\x7d").take (i + 1))).2 = 0
          ∧ ∀ j, j < i → (scanState ((str "\x7d").take (j + 1))).2 ≠ 0) :=
  c10_extract_block_safe (str "\x7d")

theorem locationStep_inv (p v b : Str) (loc : Str × Nat) (acc : NginxScan × Bool)
    (h : ScanInv acc.1) : ScanInv (locationStep p v b loc acc).1 := by
  obtain ⟨hn, hs⟩ := h
  simp only [locationStep]
  split
  · exact ⟨hn, hs⟩
  · split
    · exact ⟨hn, hs⟩
    · next cap hcap =>
      split
      · exact ⟨hn, hs⟩
      · next h2 =>
        split
        · exact ⟨hn, fun a ha => List.mem_cons_of_mem _ (hs a ha)⟩
        · constructor
          · rw [List.map_append]
            rw [List.nodup_append]
            refine ⟨hn, List.nodup_singleton _, ?_⟩
            intro u hu hu1
            simp only [List.map_cons, List.map_nil, List.mem_singleton] at hu1
            subst hu1
            obtain ⟨a, ha, hau⟩ := List.mem_map.mp hu
            have : a.url ∈ acc.1.seen := hs a ha
            rw [hau] at this
            exact h2 (List.elem_eq_true_of_mem this)
          · intro a ha
            rcases List.mem_append.mp ha with ha | ha
            · exact List.mem_cons_of_mem _ (hs a ha)
            · simp only [List.mem_singleton] at ha
              subst ha
              exact List.mem_cons_self _ _

theorem processLocations_inv (p v b : Str) :
    ∀ (locs : List (Str × Nat)) (acc : NginxScan × Bool), ScanInv acc.1 →
      ScanInv (processLocations p v b locs acc).1 := by
  intro locs
  induction locs with
  | nil => intro acc h; exact h
  | cons loc more ih =>
    intro acc h
    rw [processLocations]
    exact ih _ (locationStep_inv p v b loc acc h)

theorem serverFallback_inv (protocol validHost serverBlock : Str)
    (st1 : NginxScan) (h : ScanInv st1) :
    ScanInv (serverFallback protocol validHost serverBlock st1) := by
  obtain ⟨hn1, hs1⟩ := h
  simp only [serverFallback]
  split
  · exact ⟨hn1, hs1⟩
  · next cap2 hcap2 =>
    split
    · exact ⟨hn1, hs1⟩
    · next h2 =>
      constructor
      · rw [List.map_append, List.nodup_append]
        refine ⟨hn1, List.nodup_singleton _, ?_⟩
        intro u hu hu1
        simp only [List.map_cons, List.map_nil, List.mem_singleton] at hu1
        subst hu1
        obtain ⟨a, ha, hau⟩ := List.mem_map.mp hu
        have := hs1 a ha
        rw [hau] at this
        exact h2 (List.elem_eq_true_of_mem this)
      · intro a ha
        rcases List.mem_append.mp ha with ha | ha
        · exact List.mem_cons_of_mem _ (hs1 a ha)
        · simp only [List.mem_singleton] at ha
          subst ha
          exact List.mem_cons_self _ _

theorem processServerBlock_inv (st : NginxScan) (block : Str) (h : ScanInv st) :
    ScanInv (processServerBlock st block) := by
  simp only [processServerBlock]
  split
  · exact h
  · next cap hcap =>
    split
    · exact h
    · next validHost hvh =>
      split
      · have hres := processLocations_inv (str "https") validHost
          (extractBlock block).1 (findLocations (extractBlock block).1) (st, false) h
        split
        · exact hres
        · exact serverFallback_inv (str "https") validHost (extractBlock block).1 _ hres
      · have hres := processLocations_inv (str "http") validHost
          (extractBlock block).1 (findLocations (extractBlock block).1) (st, false) h
        split
        · exact hres
        · exact serverFallback_inv (str "http") validHost (extractBlock block).1 _ hres

theorem foldl_processServerBlock_inv :
    ∀ (blocks : List Str) (st : NginxScan), ScanInv st →
      ScanInv (blocks.foldl processServerBlock st) := by
  intro blocks
  induction blocks with
  | nil => intro st h; exact h
  | cons b more ih =>
    intro st h
    exact ih _ (processServerBlock_inv st b h)

theorem processConfigFile_inv (fs : NginxFS) (st : NginxScan)
    (content : Option Str) (h : ScanInv st) :
    ScanInv (processConfigFile fs st content) := by
  cases content with
  | none => exact h
  | some data => exact foldl_processServerBlock_inv _ st h

theorem discoverNginxApps_fold_inv (fs : NginxFS) :
    ∀ (entries : List DirEntry) (st : NginxScan), ScanInv st →
      ScanInv (entries.foldl
        (fun st e =>
          if e.isDir then st
          else if isNginxConfigFile e.name then processConfigFile fs st e.content
          else st) st) := by
  intro entries
  induction entries with
  | nil => intro st h; exact h
  | cons e more ih =>
    intro st h
    refine ih _ ?_
    by_cases h1 : e.isDir
    · simpa [h1]
    · by_cases h2 : isNginxConfigFile e.name
      · simpa [h1, h2] using processConfigFile_inv fs st e.content h
      · simpa [h1, h2]

theorem keepFold_sublist : ∀ (l : List App) (kept : List Str),
    (keepFold l kept).Sublist l := by
  intro l
  induction l with
  | nil => intro kept; simp [keepFold]
  | cons a rest ih =>
    intro kept
    rw [keepFold]
    split
    · exact (ih kept).cons a
    · exact (ih (kept ++ [trimRightChar a.url '/'])).cons₂ a

theorem mem_keepFold {a : App} {l : List App} {kept : List Str}
    (h : a ∈ keepFold l kept) : a ∈ l :=
  (keepFold_sublist l kept).mem h

theorem hostKeys_foldl_nodup :
    ∀ (apps : List App) (ks : List Str), ks.Nodup →
      (apps.foldl (fun ks a =>
        if ks.contains (hostOf a.url) then ks else ks ++ [hostOf a.url]) ks).Nodup := by
  intro apps
  induction apps with
  | nil => intro ks h; exact h
  | cons a rest ih =>
    intro ks h
    simp only [List.foldl_cons]
    split
    · exact ih ks h
    · next hc =>
        refine ih _ ?_
        simp only [List.nodup_append, List.nodup_singleton]
        refine ⟨h, trivial, ?_⟩
        intro x hx hx1
        simp only [List.mem_singleton] at hx1
        subst hx1
        exact hc (List.elem_eq_true_of_mem hx)

theorem hostKeys_nodup (apps : List App) : (hostKeys apps).Nodup :=
  hostKeys_foldl_nodup apps [] List.nodup_nil

theorem mem_groupOut {apps : List App} {h : Str} {a : App}
    (ha : a ∈ keepFold (sortByUrlLen (apps.filter (fun x => hostOf x.url == h))) []) :
    a ∈ apps ∧ hostOf a.url = h := by
  have h1 : a ∈ sortByUrlLen (apps.filter (fun x => hostOf x.url == h)) :=
    mem_keepFold ha
  have h2 : a ∈ apps.filter (fun x => hostOf x.url == h) :=
    (List.perm_insertionSort _ _).mem_iff.mp h1
  have h3 := List.mem_filter.mp h2
  exact ⟨h3.1, by simpa using h3.2⟩

theorem groupOut_urls_nodup {apps : List App} (h : Str)
    (hn : (apps.map (·.url)).Nodup) :
    ((keepFold (sortByUrlLen (apps.filter (fun x => hostOf x.url == h))) []).map
      (·.url)).Nodup := by
  have hf : ((apps.filter (fun x => hostOf x.url == h)).map (·.url)).Nodup :=
    hn.sublist ((apps.filter_sublist).map (·.url))
  have hperm : (sortByUrlLen (apps.filter (fun x => hostOf x.url == h))).Perm
      (apps.filter (fun x => hostOf x.url == h)) := List.perm_insertionSort _ _
  have hp : ((sortByUrlLen (apps.filter (fun x => hostOf x.url == h))).map
      (·.url)).Nodup :=
    ((hperm.map (·.url)).nodup_iff).mpr hf
  exact hp.sublist ((keepFold_sublist _ _).map (·.url))

theorem flatMap_groups_nodup (apps : List App)
    (hn : (apps.map (·.url)).Nodup) :
    ∀ (keys : List Str), keys.Nodup →
      ((keys.flatMap (fun h =>
        keepFold (sortByUrlLen (apps.filter (fun a => hostOf a.url == h))) [])).map
        (·.url)).Nodup := by
  intro keys
  induction keys with
  | nil => intro; simp
  | cons k ks ih =>
    intro hk
    rw [List.flatMap_cons, List.map_append, List.nodup_append]
    refine ⟨groupOut_urls_nodup k hn, ih (List.nodup_cons.mp hk).2, ?_⟩
    intro u hu1 hu2
    obtain ⟨a, ha, hau⟩ := List.mem_map.mp hu1
    obtain ⟨b, hb, hbu⟩ := List.mem_map.mp hu2
    obtain ⟨k', hk', hb'⟩ := List.mem_flatMap.mp hb
    have hha := mem_groupOut ha
    have hhb := mem_groupOut hb'
    have hkk : k = k' := by
      rw [← hha.2, ← hhb.2, hau, hbu]
    subst hkk
    exact (List.nodup_cons.mp hk).1 hk'

theorem dedupe_urls_nodup (apps : List App)
    (hn : (apps.map (·.url)).Nodup) :
    ((dedupeAppsByBasePath apps).map (·.url)).Nodup := by
  rw [dedupeAppsByBasePath]
  split
  · exact hn
  · exact flatMap_groups_nodup apps hn (hostKeys apps) (hostKeys_nodup apps)

/-- C2 counterexample: the Unraid collector performs no URL
deduplication — two containers sharing the same `net.unraid.docker.webui`
label yield two records with the same URL in one collection run. -/
theorem c2_counterexample :
    ¬ (∀ (containers : List UnraidContainer) (u : Str),
        ((unraidContainerApps containers u).map (·.url)).Nodup) := by
  intro h
  exact absurd
    (h [⟨str "1", [str "/a"], str "RUNNING",
          [(str "net.unraid.docker.webui", str "http://x")], str "img"⟩,
        ⟨str "2", [str "/b"], str "RUNNING",
          [(str "net.unraid.docker.webui", str "http://x")], str "img"⟩]
       (str "http://h"))
    (by decide)

/-- C2 amended: for the nginx collector, every collection run produces a
snapshot with pairwise-distinct URLs, and when two emissions would share a
URL the later one is dropped — on a configuration whose two `/x` locations
proxy to `http://a` and then `http://b`, the snapshot keeps one app for
`/x`, proxied to `http://a` (first occurrence wins).  The Unraid collector
does not deduplicate (see the counterexample). -/
theorem c2_nginx_urls_unique :
    (∀ (fs : NginxFS) (entries : List DirEntry),
        ((discoverNginxApps fs entries).map (·.url)).Nodup)
    ∧ discoverNginxApps
        ⟨fun _ => false, fun _ => none, fun _ => none, fun _ => none, fun _ => none⟩
        [⟨str "a.conf", false,
          some (str "server \x7b\nserver_name app.example.com;\nlocation /x \x7b\nproxy_pass http://a;\n\x7d\nlocation /x \x7b\nproxy_pass http://b;\n\x7d\n\x7d\n")⟩]
      = [{ name := str "X"
           url := str "http://app.example.com/x"
           icon := []
           description := str "Discovered via Nginx (proxied to http://a)"
           status := str "online" }] := by
  constructor
  · intro fs entries
    have h0 : ScanInv ⟨[], []⟩ := ⟨List.nodup_nil, by simp⟩
    have h1 := discoverNginxApps_fold_inv fs entries ⟨[], []⟩ h0
    simp only [discoverNginxApps]
    exact dedupe_urls_nodup _ h1.1
  · rfl

/-- Witness for `c2_nginx_urls_unique`: distinct URLs on a concrete run
with no config files. -/
theorem c2_nginx_urls_unique_witness :
    ((discoverNginxApps
        ⟨fun _ => false, fun _ => none, fun _ => none, fun _ => none, fun _ => none⟩
        []).map (·.url)).Nodup :=
  c2_nginx_urls_unique.1
    ⟨fun _ => false, fun _ => none, fun _ => none, fun _ => none, fun _ => none⟩ []

theorem keepFold_not_prefix_of_kept :
    ∀ (l : List App) (kept : List Str) (b : App), b ∈ keepFold l kept →
      ∀ k ∈ kept, ¬ ((k ++ ['/']).isPrefixOf (trimRightChar b.url '/') = true) := by
  intro l
  induction l with
  | nil => intro kept b hb; simp [keepFold] at hb
  | cons a rest ih =>
    intro kept b hb
    rw [keepFold] at hb
    split at hb
    · exact ih kept b hb
    · next hany =>
      rcases List.mem_cons.mp hb with hb | hb
      · subst hb
        intro k hk hpre
        exact hany (List.any_eq_true.mpr ⟨k, hk, hpre⟩)
      · intro k hk
        exact ih _ b hb k (List.mem_append.mpr (Or.inl hk))

theorem keepFold_pairwise_not_subpath :
    ∀ (l : List App) (kept : List Str),
      List.Pairwise (fun a b =>
        ¬ ((trimRightChar a.url '/' ++ ['/']).isPrefixOf
            (trimRightChar b.url '/') = true)) (keepFold l kept) := by
  intro l
  induction l with
  | nil => intro kept; simp [keepFold]
  | cons a rest ih =>
    intro kept
    rw [keepFold]
    split
    · exact ih kept
    · refine List.Pairwise.cons ?_ (ih _)
      intro b hb
      exact keepFold_not_prefix_of_kept rest _ b hb (trimRightChar a.url '/')
        (List.mem_append.mpr (Or.inr (List.mem_singleton.mpr rfl)))

theorem filter_flatMap_groups (apps : List App) (h : Str) :
    ∀ (keys : List Str), keys.Nodup →
      ((keys.flatMap (fun k =>
          keepFold (sortByUrlLen (apps.filter (fun a => hostOf a.url == k))) [])).filter
        (fun a => hostOf a.url == h))
      = if h ∈ keys then
          keepFold (sortByUrlLen (apps.filter (fun a => hostOf a.url == h))) []
        else [] := by
  intro keys
  induction keys with
  | nil => intro; simp
  | cons k ks ih =>
    intro hk
    rw [List.flatMap_cons, List.filter_append, ih (List.nodup_cons.mp hk).2]
    by_cases hkh : k = h
    · subst hkh
      have hnin : k ∉ ks := (List.nodup_cons.mp hk).1
      rw [if_neg hnin, if_pos (List.mem_cons_self _ _)]
      rw [List.filter_eq_self.mpr, List.append_nil]
      intro a ha
      simpa using (mem_groupOut ha).2
    · have h1 : (keepFold (sortByUrlLen (apps.filter (fun a => hostOf a.url == k)))
          []).filter (fun a => hostOf a.url == h) = [] := by
        rw [List.filter_eq_nil_iff]
        intro a ha
        simpa using fun hc => hkh (((mem_groupOut ha).2).symm.trans hc)
      rw [h1, List.nil_append]
      by_cases hin : h ∈ ks
      · rw [if_pos hin, if_pos (List.mem_cons_of_mem _ hin)]
      · rw [if_neg hin, if_neg (fun hm => by
          rcases List.mem_cons.mp hm with hm | hm
          · exact hkh hm.symm
          · exact hin hm)]

theorem groupOut_sorted (apps : List App) (h : Str) :
    List.Pairwise urlLenLE
      (keepFold (sortByUrlLen (apps.filter (fun a => hostOf a.url == h))) []) :=
  List.Pairwise.sublist (keepFold_sublist _ _) (List.sorted_insertionSort _ _)

/-- C7: sub-path deduplication keeps, per host, only apps whose trimmed
URL does not extend an already-kept (shorter) URL by `/` — concretely, of
`/lidarr` and `/lidarr/api` on one host only `/lidarr` survives; every
output app is an input app; per host the output is pairwise free of
`prefix + /` extensions and sorted by URL length ascending. -/
theorem c7_subpath_dedup :
    dedupeAppsByBasePath
        [{ name := str "Lidarr", url := str "http://h/lidarr", icon := [],
           description := [], status := str "online" },
         { name := str "Lidarr Api", url := str "http://h/lidarr/api", icon := [],
           description := [], status := str "online" }]
      = [{ name := str "Lidarr", url := str "http://h/lidarr", icon := [],
           description := [], status := str "online" }]
    ∧ (∀ (apps : List App) (a : App), a ∈ dedupeAppsByBasePath apps → a ∈ apps)
    ∧ (∀ (apps : List App) (h : Str),
        List.Pairwise (fun a b =>
          ¬ ((trimRightChar a.url '/' ++ ['/']).isPrefixOf
              (trimRightChar b.url '/') = true))
          ((dedupeAppsByBasePath apps).filter (fun a => hostOf a.url == h)))
    ∧ (∀ (apps : List App) (h : Str),
        List.Pairwise urlLenLE
          ((dedupeAppsByBasePath apps).filter (fun a => hostOf a.url == h))) := by
  refine ⟨by rfl, ?_, ?_, ?_⟩
  · intro apps a ha
    rw [dedupeAppsByBasePath] at ha
    split at ha
    · next he => rw [he] at ha; exact absurd ha (List.not_mem_nil a)
    · obtain ⟨k, hk, hmem⟩ := List.mem_flatMap.mp ha
      exact (mem_groupOut hmem).1
  · intro apps h
    rw [dedupeAppsByBasePath]
    split
    · next he => subst he; exact List.Pairwise.nil
    · rw [filter_flatMap_groups apps h (hostKeys apps) (hostKeys_nodup apps)]
      split
      · exact keepFold_pairwise_not_subpath _ _
      · exact List.Pairwise.nil
  · intro apps h
    rw [dedupeAppsByBasePath]
    split
    · next he => subst he; exact List.Pairwise.nil
    · rw [filter_flatMap_groups apps h (hostKeys apps) (hostKeys_nodup apps)]
      split
      · exact groupOut_sorted apps h
      · exact List.Pairwise.nil

/-- Witness for `c7_subpath_dedup`: a concrete output app is an input
app. -/
theorem c7_subpath_dedup_witness :
    ({ name := str "A", url := str "http://h/a", icon := [],
       description := [], status := str "online" } : App)
      ∈ [({ name := str "A", url := str "http://h/a", icon := [],
            description := [], status := str "online" } : App)] :=
  c7_subpath_dedup.2.1
    [{ name := str "A", url := str "http://h/a", icon := [],
       description := [], status := str "online" }]
    { name := str "A", url := str "http://h/a", icon := [],
      description := [], status := str "online" }
    (by decide)
